import Mathlib

/-
Verification of the fhrss pipeline (src/scripts/app.py): a shallow embedding of
the stream-selection algorithm, the fun-half link extractor, the URL
normalizer, the date resolver, and the RSS feed store, together with theorems
settling the specification claims.

Modelling conventions:
* Python strings are modelled as `String` / `List Char`; text helpers
  (`strip`, `splitlines`, substring tests, splitting) are re-implemented over
  `List Char` with Python's semantics.  Python's whitespace and line-break
  character classes are modelled by their ASCII/Latin-1 members (plus the two
  Unicode line separators); the rarer Unicode space characters never occur in
  any datum the claims mention.
* Calendar dates are modelled as integer day numbers with the convention that
  day number `d` falls on Python weekday `d % 7` (Monday = 0 .. Sunday = 6).
  The `strptime`/`astimezone` conversion in `pick_target_stream` (timezone
  arithmetic, excluded from scope by the spec) is modelled by letting a
  provider entry carry the resulting local calendar date directly.
* The network collaborators (`yt_dlp` listing and metadata fetch) are external
  per the spec; their results are the inputs of the modelled functions.
* The feed file is modelled as a `FileState` (absent, unparsable, or a parsed
  document) plus the list of backup files; the channel metadata is a fixed
  constant block that no modelled operation reads or changes, so only the item
  list is carried.  `xml.etree.ElementTree.ParseError` is modelled as the
  error of an `Except`.
-/

namespace Fhrss

/-! ## Python text primitives -/

/-- Whitespace as recognised by Python's `str.strip` and `re` `\s` class
(ASCII and Latin-1 members; rarer Unicode spaces are not modelled). -/
def pyIsSpace (c : Char) : Bool :=
  c = ' ' || c = '\t' || c = '\n' || c = '\r' || c = '\x0b' || c = '\x0c' ||
  c = '\x1c' || c = '\x1d' || c = '\x1e' || c = '\x1f' || c = '\x85' || c = '\xa0'

/-- Python `str.strip()` with no arguments. -/
def pyStrip (cs : List Char) : List Char :=
  ((cs.dropWhile pyIsSpace).reverse.dropWhile pyIsSpace).reverse

/-- Line-break characters of Python's `str.splitlines`. -/
def isLineBreak (c : Char) : Bool :=
  c = '\n' || c = '\r' || c = '\x0b' || c = '\x0c' ||
  c = '\x1c' || c = '\x1d' || c = '\x1e' || c = '\x85' ||
  c = '\u2028' || c = '\u2029'

/-- Worker for `splitlines`: `acc` is the current line, reversed. -/
def splitlinesGo (acc : List Char) : List Char → List (List Char)
  | [] => if acc.isEmpty then [] else [acc.reverse]
  | '\r' :: '\n' :: rest => acc.reverse :: splitlinesGo [] rest
  | c :: rest =>
    if isLineBreak c then acc.reverse :: splitlinesGo [] rest
    else splitlinesGo (c :: acc) rest

/-- Python `str.splitlines()`: `"\r\n"` counts as a single break and a
trailing break produces no trailing empty line. -/
def splitlines (cs : List Char) : List (List Char) :=
  splitlinesGo [] cs

/-- The part of `cs` strictly before the first occurrence of `c`
(all of `cs` when `c` does not occur), as in `s.split(c)[0]`. -/
def takeBeforeFirst (c : Char) : List Char → List Char
  | [] => []
  | x :: xs => if x = c then [] else x :: takeBeforeFirst c xs

/-- The part of `cs` strictly after the first occurrence of `c`, or `none`
when `c` does not occur, as in Python's `s.split(c, 1)` second component. -/
def takeAfterFirst (c : Char) : List Char → Option (List Char)
  | [] => none
  | x :: xs => if x = c then some xs else takeAfterFirst c xs

/-- Python `s.split(sep)` for a one-character separator: always returns at
least one (possibly empty) part. -/
def splitOnChar (sep : Char) : List Char → List (List Char)
  | [] => [[]]
  | c :: cs =>
    if c = sep then [] :: splitOnChar sep cs
    else
      match splitOnChar sep cs with
      | [] => [[c]]
      | h :: t => (c :: h) :: t

/-- Python `str.lower()` (ASCII case mapping suffices for every datum the
claims mention). -/
def lowerL (cs : List Char) : List Char :=
  cs.map Char.toLower

/-- Bool-valued list-level "is a leading segment of" test. -/
def isPrefixL : List Char → List Char → Bool
  | [], _ => true
  | _ :: _, [] => false
  | a :: as, b :: bs => a = b && isPrefixL as bs

/-- Python's substring test `needle in hay`: the needle occurs as a
contiguous segment of the haystack (the empty needle always occurs). -/
def pyIn (n : List Char) : List Char → Bool
  | [] => n.isEmpty
  | b :: t => isPrefixL n (b :: t) || pyIn n t

/-! ## URL normalization (`clean_yt_url` and its library helpers) -/

/-- The query component produced by `urllib.parse.urlparse`: the fragment
(everything from the first `\x23`) is removed first, then the query is
everything after the first remaining question mark. -/
def urlparse_query (url : List Char) : List Char :=
  (takeAfterFirst '?' (takeBeforeFirst '#' url)).getD []

/-- One pair of `urllib.parse.parse_qs` with the default settings: a
`\x26`-separated field contributes a value for key `v` when it has the shape
`v=<nonempty value>` (fields without `=` or with an empty value are dropped;
percent-decoding and `+` translation are not modelled because no datum the
claims mention contains a percent escape or a plus sign). -/
def qsFieldV (p : List Char) : Option (List Char) :=
  match takeAfterFirst '=' p with
  | none => none
  | some v =>
    if takeBeforeFirst '=' p = ['v'] && !v.isEmpty then some v else none

/-- `parse_qs(query).get('v', [''])[0]`: the first value bound to key `v`,
or the empty string when there is none. -/
def parse_qs_v (query : List Char) : List Char :=
  ((splitOnChar '&' query).filterMap qsFieldV).headD []

/-- `clean_yt_url` from app.py: cut the URL at the first `?` and at the first
`\x26`; when the original text contains both `watch` and `v=` and the `v`
query parameter is non-empty, rewrite to the canonical live form instead. -/
def clean_yt_url (url : String) : String :=
  let cs := url.toList
  let u := takeBeforeFirst '&' (takeBeforeFirst '?' cs)
  if pyIn ("watch".toList) cs && pyIn ("v=".toList) cs then
    let vid := parse_qs_v (urlparse_query cs)
    if !vid.isEmpty then String.mk (("https://youtube.com/live/".toList) ++ vid)
    else String.mk u
  else String.mk u

/-- `ALLOWED_PREFIXES` from app.py. -/
def ALLOWED_PREFIXES : List String :=
  ["https://www.youtube.com/live/", "https://youtube.com/live/", "https://youtu.be/"]

/-- `url.startswith(ALLOWED_PREFIXES)`: the string starts with one of the
allow-listed forms. -/
def startsWithAllowed (u : String) : Bool :=
  ALLOWED_PREFIXES.any (fun p => isPrefixL p.toList u.toList)

/-! ## The two regular expressions of app.py

`FUN_HALF_PATTERN = fun\s*[\-‐-―−]?\s*half` (IGNORECASE) and
`YOUTUBE_URL_PATTERN =
  https?://(?:www\.)?(?:youtube\.com/live/|youtu\.be/|youtube\.com/watch\?v=)[A-Za-z0-9_-]{6,}`.
Both patterns are deterministic (no alternative ever needs backtracking:
the starred class `\s` contains neither a dash nor `h`, the three URL
alternatives diverge on distinct literal characters, and the id class does not
contain the characters that may follow a match), so maximal-munch matching
reproduces the `re` semantics exactly. -/

/-- The dash class `[\-‐-―−]` of `FUN_HALF_PATTERN`. -/
def isDashChar (c : Char) : Bool :=
  c = '-' || ('‐' ≤ c && c ≤ '―') || c = '−'

/-- Consume a literal case-insensitively (the literal is given lowercase);
returns the rest of the input on success. -/
def eatLitCI : List Char → List Char → Option (List Char)
  | [], cs => some cs
  | _ :: _, [] => none
  | l :: ls, c :: cs => if c.toLower = l then eatLitCI ls cs else none

/-- Does `FUN_HALF_PATTERN` match starting exactly at the head of `cs`? -/
def funHalfHere (cs : List Char) : Bool :=
  match eatLitCI ("fun".toList) cs with
  | none => false
  | some r1 =>
    let r2 := r1.dropWhile pyIsSpace
    let r3 := match r2 with
      | c :: rest => if isDashChar c then rest else r2
      | [] => r2
    (eatLitCI ("half".toList) (r3.dropWhile pyIsSpace)).isSome

/-- `FUN_HALF_PATTERN.search`: a match starts at some position. -/
def funHalfSearch : List Char → Bool
  | [] => false
  | c :: rest => funHalfHere (c :: rest) || funHalfSearch rest

/-- Consume a literal case-sensitively; returns the rest on success. -/
def eatLit : List Char → List Char → Option (List Char)
  | [], cs => some cs
  | _ :: _, [] => none
  | l :: ls, c :: cs => if c = l then eatLit ls cs else none

/-- Consume an optional literal (`s?` / `(?:www\.)?`). -/
def eatOpt (lit : List Char) (cs : List Char) : List Char :=
  (eatLit lit cs).getD cs

/-- The id class `[A-Za-z0-9_-]` of `YOUTUBE_URL_PATTERN`. -/
def isIdChar (c : Char) : Bool :=
  c.isAlphanum || c = '_' || c = '-'

/-- Match `YOUTUBE_URL_PATTERN` at the head of `cs`; on success return the
rest of the input after the (greedy) match. -/
def matchYT (cs : List Char) : Option (List Char) :=
  match eatLit ("http".toList) cs with
  | none => none
  | some r1 =>
    let r2 := eatOpt ("s".toList) r1
    match eatLit ("://".toList) r2 with
    | none => none
    | some r3 =>
      let r4 := eatOpt ("www.".toList) r3
      match eatLit ("youtube.com/live/".toList) r4 <|>
            eatLit ("youtu.be/".toList) r4 <|>
            eatLit ("youtube.com/watch?v=".toList) r4 with
      | none => none
      | some r5 =>
        if (r5.takeWhile isIdChar).length ≥ 6 then some (r5.dropWhile isIdChar)
        else none

/-- Worker for `findall` with explicit fuel.  Scanning either advances one
position (no match here) or jumps past a non-empty match, so every step
strictly shrinks the input; fuel `cs.length + 1` therefore never runs out. -/
def findallGo : Nat → List Char → List (List Char)
  | 0, _ => []
  | _, [] => []
  | fuel + 1, c :: rest =>
    match matchYT (c :: rest) with
    | some r =>
      (c :: rest).take ((c :: rest).length - r.length) :: findallGo fuel r
    | none => findallGo fuel rest

/-- `YOUTUBE_URL_PATTERN.findall`: the non-overlapping matches, left to
right, each taken greedily. -/
def findallYT (cs : List Char) : List (List Char) :=
  findallGo (cs.length + 1) cs

/-! ## The link extractor (`extract_funhalf_from_text`) -/

/-- The body of the per-line scan: when the line mentions the fun-half phrase,
return the first URL-shaped substring whose normal form passes the allow-list,
rejected candidates being skipped. -/
def scanLine (line : List Char) : Option String :=
  if funHalfSearch line then
    (findallYT line).findSome? (fun u =>
      let cu := clean_yt_url (String.mk u)
      if startsWithAllowed cu then some cu else none)
  else none

/-- `extract_funhalf_from_text` from app.py. -/
def extract_funhalf_from_text (text : String) : Option String :=
  if text.isEmpty then none
  else ((splitlines text.toList).map pyStrip).findSome? scanLine

/-! ## Video metadata search (`find_funhalf_url_for_video`) -/

/-- One comment record as delivered by the metadata provider; a missing
`text` field and a falsy `pinned` flag are the defaults. -/
structure YTComment where
  text : Option String
  pinned : Bool
deriving DecidableEq

/-- The slice of the metadata record that the search reads.  The fetch itself
is the external collaborator; a `None` result of `extract_info` corresponds to
the record with both fields absent (`info or \x7b\x7d`). -/
structure VideoInfo where
  description : Option String
  comments : Option (List YTComment)
deriving DecidableEq

/-- `find_funhalf_url_for_video` from app.py, applied to the fetched record:
description first, then the pinned comment, then the first 50 comments. -/
def find_funhalf_url_for_video (info : VideoInfo) : Option String :=
  match extract_funhalf_from_text (info.description.getD "") with
  | some url => some url
  | none =>
    let comments := info.comments.getD []
    let pinnedUrl :=
      match comments.find? (fun c => c.pinned) with
      | some p => extract_funhalf_from_text (p.text.getD "")
      | none => none
    match pinnedUrl with
    | some url => some url
    | none =>
      (comments.take 50).findSome? (fun c => extract_funhalf_from_text (c.text.getD ""))

/-! ## Date resolution (`is_weekday`, `previous_weekday`) -/

/-- `is_weekday` from app.py: Python weekday (day number mod 7) below 5. -/
def is_weekday (d : Int) : Bool :=
  decide (d % 7 < 5)

/-- The body of `previous_weekday`'s loop after the first decrement: walk
backwards until a weekday is reached.  Termination: a non-weekday has
`d % 7 ∈ {5, 6}` and the residue drops by one each step. -/
def pwGo (d : Int) : Int :=
  if h : is_weekday d then d else pwGo (d - 1)
termination_by (d % 7 - 4).toNat
decreasing_by
  simp only [is_weekday, decide_eq_true_eq, not_lt] at h
  omega

/-- `previous_weekday` from app.py: decrement at least once, then keep
decrementing until a weekday. -/
def previous_weekday (d : Int) : Int :=
  pwGo (d - 1)

/-- The target-date resolution of `main`:
`target = now if is_weekday(now) else previous_weekday(now)`. -/
def resolve_target_date (d : Int) : Int :=
  if is_weekday d then d else previous_weekday d

/-! ## Stream selection (`pick_target_stream`) -/

/-- A raw provider entry (the fields of the yt-dlp dictionary that
`pick_target_stream` reads).  `upload_date` carries the local calendar date
obtained from the entry's upload date, as an integer day number (see the
header comment), or `none` when the provider omitted it. -/
structure Entry where
  id : Option String
  url : Option String
  webpage_url : Option String
  title : Option String
  duration : Option Int
  upload_date : Option Int
deriving DecidableEq

/-- The candidate record built by the loop of `pick_target_stream`. -/
structure Cand where
  id : Option String
  url : Option String
  title : Option String
  duration : Int
  et_date : Option Int
deriving DecidableEq

/-- Python `a or b` on optional strings: the empty string is falsy. -/
def pyOrOpt (a b : Option String) : Option String :=
  match a with
  | some s => if s = "" then b else some s
  | none => b

/-- The title filter of `pick_target_stream`:
`any(s in title for s in ["clip", "members", "premiere"])` on the lowered
title (a missing title counts as the empty string). -/
def bad_title (t : Option String) : Bool :=
  (["clip", "members", "premiere"]).any
    (fun s => pyIn s.toList (lowerL (t.getD "").toList))

/-- Build one candidate record (`duration or 0` defaults a missing duration
to zero, and `e.get('url') or e.get('webpage_url')` prefers the truthy one). -/
def mkCand (e : Entry) : Cand :=
  { id := e.id
    url := pyOrOpt e.url e.webpage_url
    title := e.title
    duration := e.duration.getD 0
    et_date := e.upload_date }

/-- The candidate list built by the loop: entries with a filtered title are
skipped, the rest are converted. -/
def mkCands (entries : List Entry) : List Cand :=
  (entries.filter (fun e => !bad_title e.title)).map mkCand

/-- The same-day set: candidates whose date equals the target date
(`c['et_date'] == target_date.date()`; a missing date never equals a date). -/
def sameList (entries : List Entry) (target : Int) : List Cand :=
  (mkCands entries).filter (fun c => decide (c.et_date = some target))

/-- The prior set: candidates with a known date on or before the target
(`c['et_date'] and c['et_date'] <= target_date.date()`). -/
def priorList (entries : List Entry) (target : Int) : List Cand :=
  (mkCands entries).filter (fun c =>
    match c.et_date with
    | none => false
    | some d => decide (d ≤ target))

/-- Python's `max(key=...)` as a fold: keep the current element unless the
next one is strictly greater, so the first maximal element wins. -/
def pymaxFold {α : Type} (key : α → Int) (x : α) (l : List α) : α :=
  l.foldl (fun b a => if key b < key a then a else b) x

/-- The sort key of the fallback branch: `(et_date, duration)`, compared
lexicographically (every element of the prior set has a known date, so the
default in the first component is never read). -/
def lexKey (c : Cand) : Int × Int :=
  (c.et_date.getD 0, c.duration)

/-- The comparator realising Python's stable `sort(key=..., reverse=True)`:
an element may precede another when its key is lexicographically at least as
large. -/
def keyGe (a b : Cand) : Bool :=
  decide ((lexKey b).1 < (lexKey a).1 ∨
    ((lexKey b).1 = (lexKey a).1 ∧ (lexKey b).2 ≤ (lexKey a).2))

/-- `pick_target_stream` from app.py.  `duration or 0` inside the keys is the
identity because the `duration` field was already defaulted to zero. -/
def pick_target_stream (entries : List Entry) (target : Int) : Option Cand :=
  match sameList entries target with
  | c :: cs => some (pymaxFold (fun c => c.duration) c cs)
  | [] =>
    match (priorList entries target).mergeSort keyGe with
    | [] => none
    | c :: _ => some c

/-! ## The feed store -/

/-- One `item` element of the feed document.  Each field is the text of the
corresponding child element, `none` when the child is absent. -/
structure FeedItem where
  title : Option String
  link : Option String
  guid : Option String
  pubDate : Option String
deriving DecidableEq

/-- The feed file: absent, present but unparsable, or a parsed document.  The
channel metadata block is a fixed constant that no modelled operation reads or
rewrites, so a parsed document is carried as its item list (in document
order). -/
inductive FileState where
  | absent : FileState
  | corrupt (content : String) : FileState
  | valid (items : List FeedItem) : FileState
deriving DecidableEq

/-- The file system as the feed store sees it: the feed file plus the backup
files created by corruption recovery (most recent first). -/
structure Store where
  file : FileState
  backups : List String
deriving DecidableEq

/-- `xml.etree.ElementTree.ParseError`. -/
inductive FeedError where
  | parseError : FeedError
deriving DecidableEq

/-- `ensure_feed_exists`: create a fresh document with no items when the path
does not exist; a no-op otherwise (even on an unparsable file, because only
`os.path.exists` is consulted). -/
def ensure_feed_exists : FileState → FileState
  | .absent => .valid []
  | s => s

/-- The identifier of one item:
`(item.findtext('guid') or item.findtext('link') or '').strip()`
(an absent element and an empty text are both falsy). -/
def itemIdent (it : FeedItem) : String :=
  let g := if it.guid.getD "" = "" then it.link.getD "" else it.guid.getD ""
  String.mk (pyStrip g.toList)

/-- The identifier set collected from a parsed document: each item's
identifier, empty identifiers skipped. -/
def read_existing_guids_pure (items : List FeedItem) : Finset String :=
  (items.filterMap (fun it =>
    let g := itemIdent it
    if g = "" then none else some g)).toFinset

/-- `read_existing_guids` from app.py.  A missing file yields the empty set;
a parsed document yields its identifier set; an unparsable file is copied to
a backup, removed, recreated fresh via `ensure_feed_exists`, and the empty
set is returned. -/
def read_existing_guids : Store → Finset String × Store
  | ⟨.absent, bk⟩ => (∅, ⟨.absent, bk⟩)
  | ⟨.valid items, bk⟩ => (read_existing_guids_pure items, ⟨.valid items, bk⟩)
  | ⟨.corrupt c, bk⟩ => (∅, ⟨ensure_feed_exists .absent, c :: bk⟩)

/-- The item element built by `append_item_to_feed` (`guid` is the link; the
publication date is carried as its already-formatted text). -/
def mkFeedItem (title link pubDate : String) : FeedItem :=
  { title := some title, link := some link, guid := some link, pubDate := some pubDate }

/-- `append_item_to_feed` from app.py.  After `ensure_feed_exists`, the file
is parsed by the unguarded `ET.parse` — on an unparsable file this raises
before `read_existing_guids` (and hence its corruption recovery) is ever
reached.  On a parsed document the current identifiers are read (that nested
`read_existing_guids` call leaves the store unchanged), a present link
returns `False` with no mutation, and otherwise the new item is inserted in
front of the existing items and `True` is returned. -/
def append_item_to_feed (st : Store) (title link pubDate : String) :
    Except FeedError (Bool × Store) :=
  match ensure_feed_exists st.file with
  | .corrupt _ => .error .parseError
  | .absent => .error .parseError
  | .valid items =>
    let st1 : Store := ⟨.valid items, st.backups⟩
    let existing := (read_existing_guids st1).1
    if link ∈ existing then .ok (false, st1)
    else .ok (true, ⟨.valid (mkFeedItem title link pubDate :: items), st.backups⟩)

/-- The state transition of one append (a raised `ParseError` escapes before
any write, leaving the store unchanged). -/
def appendStep (title link pubDate : String) (st : Store) : Store :=
  match append_item_to_feed st title link pubDate with
  | .ok (_, st') => st'
  | .error _ => st

/-- The number of items of the document carrying a given link. -/
def countLink (link : String) : FileState → Nat
  | .valid items => (items.filter (fun it => decide (it.link = some link))).length
  | _ => 0

/-! ## Theorems: date resolution (claim C9) -/

/-- Closed form of the backward walk: it stops at the current day when that
day is a weekday, and otherwise steps back past the weekend. -/
theorem pwGo_eq (d : Int) :
    pwGo d = if d % 7 ≤ 4 then d else if d % 7 = 5 then d - 1 else d - 2 := by
  by_cases h5 : d % 7 < 5
  · rw [pwGo, dif_pos (show is_weekday d = true from decide_eq_true h5),
      if_pos (by omega)]
  · have h56 : d % 7 = 5 ∨ d % 7 = 6 := by omega
    rw [pwGo, dif_neg (by simpa [is_weekday] using h5)]
    rcases h56 with h | h
    · rw [pwGo,
        dif_pos (show is_weekday (d - 1) = true from
          decide_eq_true (show (d - 1) % 7 < 5 by omega)),
        if_neg (by omega), if_pos h]
    · rw [pwGo, dif_neg (by simp only [is_weekday, decide_eq_true_eq]; omega),
        pwGo,
        dif_pos (show is_weekday (d - 1 - 1) = true from
          decide_eq_true (show (d - 1 - 1) % 7 < 5 by omega)),
        if_neg (by omega), if_neg (by omega)]
      omega

/-- Closed form of `previous_weekday`. -/
theorem previous_weekday_eq (d : Int) :
    previous_weekday d =
      if (d - 1) % 7 ≤ 4 then d - 1
      else if (d - 1) % 7 = 5 then d - 2 else d - 3 := by
  show pwGo (d - 1) = _
  rw [pwGo_eq]
  split_ifs <;> omega

/-- C9: target-date resolution terminates for every day: a weekday resolves
to itself; `previous_weekday` always reaches a weekday strictly earlier than
its input, and from a non-weekday the backward walk takes at most 2 steps. -/
theorem previous_weekday_terminates (d : Int) :
    (is_weekday d = true → resolve_target_date d = d) ∧
    is_weekday (previous_weekday d) = true ∧
    previous_weekday d < d ∧
    (is_weekday d = false →
      d - previous_weekday d ≤ 2 ∧ resolve_target_date d = previous_weekday d) := by
  have hpw := previous_weekday_eq d
  refine ⟨fun h => by simp [resolve_target_date, h], ?_, ?_, fun h => ⟨?_, ?_⟩⟩
  · rw [hpw]; simp only [is_weekday, decide_eq_true_eq]; split_ifs <;> omega
  · rw [hpw]; split_ifs <;> omega
  · simp only [is_weekday, decide_eq_false_iff_not] at h
    rw [hpw]; split_ifs <;> omega
  · simp [resolve_target_date, h]

/-- Witness for C9 at concrete days: day 6 is a Sunday (non-weekday) resolved
within two steps, day 3 a Thursday resolved to itself. -/
theorem previous_weekday_terminates_witness :
    (is_weekday 6 = false ∧
      (6 - previous_weekday 6 ≤ 2 ∧ resolve_target_date 6 = previous_weekday 6)) ∧
    (is_weekday 3 = true ∧ resolve_target_date 3 = 3) :=
  ⟨⟨by decide, (previous_weekday_terminates 6).2.2.2 (by decide)⟩,
    ⟨by decide, (previous_weekday_terminates 3).1 (by decide)⟩⟩

/-! ## Text lemmas -/

/-- `isPrefixL` is the "leading segment" relation. -/
theorem isPrefixL_iff (n : List Char) : ∀ h : List Char,
    isPrefixL n h = true ↔ ∃ t, n ++ t = h := by
  induction n with
  | nil => intro h; simp [isPrefixL]
  | cons a as ih =>
    intro h
    cases h with
    | nil => simp [isPrefixL]
    | cons b bs =>
      simp only [isPrefixL, Bool.and_eq_true, decide_eq_true_eq, ih]
      constructor
      · rintro ⟨rfl, t, rfl⟩
        exact ⟨t, rfl⟩
      · rintro ⟨t, he⟩
        injection he with h1 h2
        exact ⟨h1, t, h2⟩

/-- `pyIn` is the occurrence-as-contiguous-segment relation. -/
theorem pyIn_iff (n : List Char) : ∀ h : List Char,
    pyIn n h = true ↔ ∃ s t, s ++ n ++ t = h := by
  intro h
  induction h with
  | nil =>
    simp only [pyIn, List.isEmpty_iff]
    constructor
    · rintro rfl
      exact ⟨[], [], rfl⟩
    · rintro ⟨s, t, he⟩
      rcases List.append_eq_nil.mp he with ⟨he1, -⟩
      exact (List.append_eq_nil.mp he1).2
  | cons b bs ih =>
    simp only [pyIn, Bool.or_eq_true, isPrefixL_iff, ih]
    constructor
    · rintro (⟨t, he⟩ | ⟨s, t, he⟩)
      · exact ⟨[], t, by simpa using he⟩
      · exact ⟨b :: s, t, by simp [he]⟩
    · rintro ⟨s, t, he⟩
      cases s with
      | nil => exact Or.inl ⟨t, by simpa using he⟩
      | cons c s' =>
        injection he with h1 h2
        exact Or.inr ⟨s', t, h2⟩

/-- Occurrence is preserved by lowering. -/
theorem pyIn_lowerL {n h : List Char} (hin : pyIn n h = true) :
    pyIn (lowerL n) (lowerL h) = true := by
  rw [pyIn_iff] at hin ⊢
  obtain ⟨s, t, rfl⟩ := hin
  exact ⟨lowerL s, lowerL t, by simp [lowerL]⟩

/-- `takeBeforeFirst` is the identity when the character does not occur. -/
theorem takeBeforeFirst_of_not_mem {c : Char} : ∀ {l : List Char},
    (∀ x ∈ l, x ≠ c) → takeBeforeFirst c l = l := by
  intro l
  induction l with
  | nil => intro _; rfl
  | cons x xs ih =>
    intro hl
    have hx : x ≠ c := hl x (by simp)
    simp only [takeBeforeFirst, if_neg hx]
    rw [ih (fun y hy => hl y (by simp [hy]))]

/-- `takeAfterFirst` cuts at the first occurrence. -/
theorem takeAfterFirst_append {c : Char} {b : List Char} : ∀ {a : List Char},
    (∀ x ∈ a, x ≠ c) → takeAfterFirst c (a ++ c :: b) = some b := by
  intro a
  induction a with
  | nil => intro _; simp [takeAfterFirst]
  | cons x xs ih =>
    intro ha
    have hx : x ≠ c := ha x (by simp)
    simpa only [List.cons_append, takeAfterFirst, if_neg hx] using
      ih (fun y hy => ha y (by simp [hy]))

/-- `splitOnChar` returns a single part when the separator does not occur. -/
theorem splitOnChar_of_not_mem {sep : Char} : ∀ {l : List Char},
    (∀ x ∈ l, x ≠ sep) → splitOnChar sep l = [l] := by
  intro l
  induction l with
  | nil => intro _; rfl
  | cons x xs ih =>
    intro hl
    have hx : x ≠ sep := hl x (by simp)
    simp only [splitOnChar, if_neg hx]
    rw [ih (fun y hy => hl y (by simp [hy]))]

/-! ## Theorems: the link extractor (claims C6, C5) -/

/-- C6: whenever `extract_funhalf_from_text` returns a URL, that URL starts
with one of the three allow-listed forms — a candidate whose normal form
fails the allow-list is skipped and never returned. -/
theorem extract_funhalf_allowlisted (text u : String)
    (h : extract_funhalf_from_text text = some u) :
    startsWithAllowed u = true := by
  unfold extract_funhalf_from_text at h
  split at h
  · simp at h
  · obtain ⟨line, -, hline⟩ := List.exists_of_findSome?_eq_some h
    unfold scanLine at hline
    split at hline
    · obtain ⟨cand, -, hcand⟩ := List.exists_of_findSome?_eq_some hline
      dsimp only at hcand
      split at hcand
      · obtain rfl := (Option.some_inj.mp hcand).symm
        assumption
      · simp at hcand
    · simp at hline

/-- Witness for C6 at a concrete text: the returned URL carries an
allow-listed form. -/
theorem extract_funhalf_allowlisted_witness :
    extract_funhalf_from_text ("fun half: https://youtu.be/abc123")
        = some ("https://youtu.be/abc123") ∧
    startsWithAllowed ("https://youtu.be/abc123") = true :=
  ⟨by decide,
    extract_funhalf_allowlisted ("fun half: https://youtu.be/abc123")
      ("https://youtu.be/abc123") (by decide)⟩

/-- Characters of the URL id class are none of the URL delimiters. -/
theorem idChar_ne_delims {ch : Char} (h : isIdChar ch = true) :
    ch ≠ '#' ∧ ch ≠ '?' ∧ ch ≠ '&' ∧ ch ≠ '=' := by
  refine ⟨?_, ?_, ?_, ?_⟩ <;> rintro rfl <;> exact absurd h (by decide)

/-- C5 counterexample: `clean_yt_url` does not strip a fragment-style
suffix — on this URL the fragment `#t=5` survives normalization unchanged. -/
theorem clean_yt_url_keeps_fragment :
    clean_yt_url ("https://youtu.be/abcdef#t=5") = "https://youtu.be/abcdef#t=5" ∧
    pyIn ("#t=5".toList) (("https://youtu.be/abcdef#t=5" : String).toList) = true :=
  ⟨by decide, by decide⟩

/-- C5 amended: `clean_yt_url` strips query-string suffixes (everything from
the first `?` and from the first ampersand) whenever the `watch`/`v=` rewrite
does not fire; a `watch?v=` URL with a well-formed non-empty id is rewritten
to the canonical live form by extracting the `v` parameter; and the extractor
maps the claim's scenario line to the canonical live URL.  Fragments
introduced by `#` are not stripped (see the counterexample). -/
theorem clean_yt_url_normalizes :
    (∀ url : String,
      pyIn ("watch".toList) url.toList = false ∨ pyIn ("v=".toList) url.toList = false →
      (clean_yt_url url).toList = takeBeforeFirst '&' (takeBeforeFirst '?' url.toList)) ∧
    (∀ vid : String, vid.toList ≠ [] →
      (∀ ch ∈ vid.toList, isIdChar ch = true) →
      clean_yt_url ("https://youtube.com/watch?v=" ++ vid)
        = "https://youtube.com/live/" ++ vid) ∧
    extract_funhalf_from_text
        ("check out the fun-half: https://youtube.com/watch?v=abc123XYZ")
      = some ("https://youtube.com/live/abc123XYZ") := by
  refine ⟨?_, ?_, by decide⟩
  · intro url h
    have hcond : (pyIn ("watch".toList) url.toList && pyIn ("v=".toList) url.toList)
        = false := by
      rcases h with h | h
      · rw [h, Bool.false_and]
      · rw [h, Bool.and_false]
    simp only [clean_yt_url, hcond]
    rfl
  · intro vid hne hid
    have hdata : (("https://youtube.com/watch?v=" ++ vid) : String).toList
        = ("https://youtube.com/watch?v=".toList) ++ vid.toList :=
      String.data_append _ _
    have hwatch :
        pyIn ("watch".toList) (("https://youtube.com/watch?v=".toList) ++ vid.toList)
          = true := by
      rw [pyIn_iff]
      refine ⟨"https://youtube.com/".toList, ("?v=".toList) ++ vid.toList, ?_⟩
      rw [show ("https://youtube.com/".toList) ++ ("watch".toList)
            ++ (("?v=".toList) ++ vid.toList)
          = (("https://youtube.com/".toList) ++ ("watch".toList) ++ ("?v=".toList))
            ++ vid.toList by simp [List.append_assoc]]
      rw [show ("https://youtube.com/".toList) ++ ("watch".toList) ++ ("?v=".toList)
          = ("https://youtube.com/watch?v=".toList) by decide]
    have hveq :
        pyIn ("v=".toList) (("https://youtube.com/watch?v=".toList) ++ vid.toList)
          = true := by
      rw [pyIn_iff]
      refine ⟨"https://youtube.com/watch?".toList, vid.toList, ?_⟩
      rw [show ("https://youtube.com/watch?".toList) ++ ("v=".toList)
          = ("https://youtube.com/watch?v=".toList) by decide]
    have hnohash :
        ∀ x ∈ ("https://youtube.com/watch?v=".toList) ++ vid.toList, x ≠ '#' := by
      intro x hx
      rcases List.mem_append.mp hx with hx | hx
      · have hp : ('#' : Char) ∉ ("https://youtube.com/watch?v=".toList) := by decide
        exact fun he => hp (he ▸ hx)
      · exact (idChar_ne_delims (hid x hx)).1
    have hquery :
        urlparse_query (("https://youtube.com/watch?v=".toList) ++ vid.toList)
          = ("v=".toList) ++ vid.toList := by
      unfold urlparse_query
      rw [takeBeforeFirst_of_not_mem hnohash]
      rw [show ("https://youtube.com/watch?v=".toList) ++ vid.toList
            = ("https://youtube.com/watch".toList) ++ '?' :: (("v=".toList) ++ vid.toList) by
          rw [show ("https://youtube.com/watch?v=".toList)
              = ("https://youtube.com/watch".toList) ++ '?' :: ("v=".toList) from by decide]
          simp [List.append_assoc]]
      rw [takeAfterFirst_append (by decide)]
      rfl
    have hnoamp : ∀ x ∈ ("v=".toList) ++ vid.toList, x ≠ '&' := by
      intro x hx
      rcases List.mem_append.mp hx with hx | hx
      · have hp : ('&' : Char) ∉ ("v=".toList) := by decide
        exact fun he => hp (he ▸ hx)
      · exact (idChar_ne_delims (hid x hx)).2.2.1
    have hvempty : vid.toList.isEmpty = false := by
      cases hv : vid.toList with
      | nil => exact absurd hv hne
      | cons c0 v' => rfl
    have hqs : parse_qs_v (("v=".toList) ++ vid.toList) = vid.toList := by
      unfold parse_qs_v
      rw [splitOnChar_of_not_mem hnoamp]
      have hfield : qsFieldV (("v=".toList) ++ vid.toList) = some vid.toList := by
        unfold qsFieldV
        rw [show (("v=".toList) ++ vid.toList) = 'v' :: '=' :: vid.toList from rfl]
        simp only [takeAfterFirst, takeBeforeFirst]
        simp [hvempty]
        exact hne
      rw [List.filterMap_cons, hfield]
      rfl
    simp only [clean_yt_url, hdata, hwatch, hveq, Bool.and_self, if_true]
    rw [hquery, hqs]
    simp only [hvempty, Bool.not_false, if_true]
    exact String.ext (by simp [String.data_append])

/-- Witness for the amended C5 at the scenario id. -/
theorem clean_yt_url_normalizes_witness :
    (("abc123XYZ" : String).toList ≠ [] ∧
      (∀ ch ∈ ("abc123XYZ" : String).toList, isIdChar ch = true)) ∧
    clean_yt_url ("https://youtube.com/watch?v=" ++ "abc123XYZ")
      = "https://youtube.com/live/" ++ "abc123XYZ" :=
  ⟨⟨by decide, by decide⟩,
    clean_yt_url_normalizes.2.1 ("abc123XYZ") (by decide) (by decide)⟩

/-! ## Theorems: metadata search order (claim C4) -/

/-- C4: the search order of `find_funhalf_url_for_video`, short-circuiting at
the first source that yields a match: the description's match wins when one
exists; otherwise the pinned comment's match when one exists; otherwise the
result is exactly the first match among the first 50 comments in provider
order (`none` when they yield nothing). -/
theorem find_funhalf_search_order (info : VideoInfo) :
    (∀ u, extract_funhalf_from_text (info.description.getD "") = some u →
      find_funhalf_url_for_video info = some u) ∧
    (extract_funhalf_from_text (info.description.getD "") = none →
      ∀ p, (info.comments.getD []).find? (fun c => c.pinned) = some p →
      ∀ u, extract_funhalf_from_text (p.text.getD "") = some u →
      find_funhalf_url_for_video info = some u) ∧
    (extract_funhalf_from_text (info.description.getD "") = none →
      (∀ p, (info.comments.getD []).find? (fun c => c.pinned) = some p →
        extract_funhalf_from_text (p.text.getD "") = none) →
      find_funhalf_url_for_video info
        = ((info.comments.getD []).take 50).findSome?
            (fun c => extract_funhalf_from_text (c.text.getD ""))) := by
  refine ⟨?_, ?_, ?_⟩
  · intro u hu
    simp only [find_funhalf_url_for_video, hu]
  · intro hd p hp u hu
    simp only [find_funhalf_url_for_video, hd, hp, hu]
  · intro hd hp
    simp only [find_funhalf_url_for_video, hd]
    cases hfp : (info.comments.getD []).find? (fun c => c.pinned) with
    | none => simp
    | some p => simp [hp p hfp]

/-- Witness for C4: the description yields nothing, so the pinned comment's
match is returned. -/
theorem find_funhalf_search_order_witness :
    extract_funhalf_from_text
        (((VideoInfo.mk (some ("the main show, no links"))
            (some [YTComment.mk (some ("great show")) false,
              YTComment.mk (some ("fun half https://youtu.be/abcdef")) true])).description).getD "")
      = none ∧
    find_funhalf_url_for_video
        (VideoInfo.mk (some ("the main show, no links"))
          (some [YTComment.mk (some ("great show")) false,
            YTComment.mk (some ("fun half https://youtu.be/abcdef")) true]))
      = some ("https://youtu.be/abcdef") :=
  ⟨by decide,
    (find_funhalf_search_order
        (VideoInfo.mk (some ("the main show, no links"))
          (some [YTComment.mk (some ("great show")) false,
            YTComment.mk (some ("fun half https://youtu.be/abcdef")) true]))).2.1
      (by decide)
      (YTComment.mk (some ("fun half https://youtu.be/abcdef")) true)
      (by decide)
      ("https://youtu.be/abcdef")
      (by decide)⟩

/-! ## Theorems: stream selection (claims C2, C7, C8) -/

/-- The fold realising Python's `max(..., key=...)`: the result is an element
of the list, its key is maximal, and it is the first element of the list
whose key attains the maximum. -/
theorem pymaxFold_spec {α : Type} (key : α → Int) (x : α) (l : List α) :
    pymaxFold key x l ∈ x :: l ∧
    (∀ y ∈ x :: l, key y ≤ key (pymaxFold key x l)) ∧
    (x :: l).find? (fun y => decide (key (pymaxFold key x l) ≤ key y))
      = some (pymaxFold key x l) := by
  induction l generalizing x with
  | nil =>
    refine ⟨by simp [pymaxFold], ?_, ?_⟩
    · intro y hy
      have hyx : y = x := by simpa using hy
      subst hyx
      exact le_refl _
    · simp [pymaxFold]
  | cons a l ih =>
    have hfold : pymaxFold key x (a :: l)
        = pymaxFold key (if key x < key a then a else x) l := rfl
    by_cases hxa : key x < key a
    · rw [hfold, if_pos hxa]
      obtain ⟨ihm, ihb, ihf⟩ := ih a
      have hxr : key x < key (pymaxFold key a l) :=
        lt_of_lt_of_le hxa (ihb a (by simp))
      refine ⟨List.mem_cons_of_mem x ihm, ?_, ?_⟩
      · intro y hy
        rcases List.mem_cons.mp hy with rfl | hy'
        · exact le_of_lt hxr
        · exact ihb y hy'
      · rw [List.find?_cons_of_neg _ (by simpa using not_le.mpr hxr)]
        exact ihf
    · rw [hfold, if_neg hxa]
      obtain ⟨ihm, ihb, ihf⟩ := ih x
      have hax : key a ≤ key x := not_lt.mp hxa
      refine ⟨?_, ?_, ?_⟩
      · rcases List.mem_cons.mp ihm with h | h
        · rw [h]; simp
        · exact List.mem_cons_of_mem x (List.mem_cons_of_mem a h)
      · intro y hy
        rcases List.mem_cons.mp hy with rfl | hy'
        · exact ihb y (by simp)
        · rcases List.mem_cons.mp hy' with rfl | hy''
          · exact le_trans hax (ihb x (by simp))
          · exact ihb y (List.mem_cons_of_mem x hy'')
      · by_cases hpx : key (pymaxFold key x l) ≤ key x
        · rw [List.find?_cons_of_pos _ (by simpa using hpx)] at ihf
          have hrx : pymaxFold key x l = x := by
            injection ihf.symm
          rw [List.find?_cons_of_pos _ (by simpa using hpx)]
          rw [hrx]
        · have hxr : key x < key (pymaxFold key x l) := not_le.mp hpx
          rw [List.find?_cons_of_neg _ (by simpa using hpx)] at ihf
          rw [List.find?_cons_of_neg _ (by simpa using hpx),
            List.find?_cons_of_neg _ (by simpa using not_le.mpr (lt_of_le_of_lt hax hxr))]
          exact ihf

/-- The comparator of the fallback sort is transitive. -/
theorem keyGe_trans (a b c : Cand) (h1 : keyGe a b) (h2 : keyGe b c) : keyGe a c := by
  simp only [keyGe, decide_eq_true_eq] at *
  omega

/-- The comparator of the fallback sort is total. -/
theorem keyGe_total (a b : Cand) : keyGe a b || keyGe b a := by
  simp only [keyGe, Bool.or_eq_true, decide_eq_true_eq]
  omega

/-- Every selected candidate comes from the filtered candidate list. -/
theorem pick_mem_mkCands (entries : List Entry) (target : Int) (c : Cand)
    (h : pick_target_stream entries target = some c) :
    c ∈ mkCands entries := by
  unfold pick_target_stream at h
  cases hs : sameList entries target with
  | cons c0 cs =>
    rw [hs] at h
    simp only [Option.some_inj] at h
    have hm := (pymaxFold_spec (fun c => c.duration) c0 cs).1
    rw [h] at hm
    have : c ∈ sameList entries target := by rw [hs]; exact hm
    exact (List.mem_filter.mp this).1
  | nil =>
    rw [hs] at h
    cases hm : (priorList entries target).mergeSort keyGe with
    | nil => rw [hm] at h; simp at h
    | cons b bs =>
      rw [hm] at h
      simp only [Option.some_inj] at h
      have : c ∈ (priorList entries target).mergeSort keyGe := by
        rw [hm, h]; simp
      exact (List.mem_filter.mp (List.mem_mergeSort.mp this)).1

/-- Members of the filtered candidate list come from entries that passed the
title filter. -/
theorem mem_mkCands (entries : List Entry) (c : Cand) (h : c ∈ mkCands entries) :
    ∃ e, e ∈ entries ∧ bad_title e.title = false ∧ c = mkCand e := by
  unfold mkCands at h
  obtain ⟨e, he, rfl⟩ := List.mem_map.mp h
  obtain ⟨he1, he2⟩ := List.mem_filter.mp he
  exact ⟨e, he1, by simpa using he2, rfl⟩

/-- C7: a selected candidate's title never contains `clip`, `members` or
`premiere` in any letter case: any string whose lowering is one of the three
banned words does not occur in the title (a missing title counts as empty). -/
theorem pick_never_banned_title (entries : List Entry) (target : Int) (c : Cand)
    (h : pick_target_stream entries target = some c) (v : String)
    (hv : lowerL v.toList = "clip".toList ∨ lowerL v.toList = "members".toList ∨
      lowerL v.toList = "premiere".toList) :
    pyIn v.toList ((c.title.getD "").toList) = false := by
  obtain ⟨e, -, hbad, rfl⟩ := mem_mkCands entries c (pick_mem_mkCands entries target c h)
  have htitle : (mkCand e).title = e.title := rfl
  rw [htitle]
  by_contra hcon
  have hin : pyIn v.toList ((e.title.getD "").toList) = true := by
    revert hcon
    cases pyIn v.toList ((e.title.getD "").toList) <;> simp
  have hlow := pyIn_lowerL hin
  have hbt : bad_title e.title = true := by
    unfold bad_title
    apply List.any_eq_true.mpr
    rcases hv with hv | hv | hv <;> rw [hv] at hlow
    · exact ⟨"clip", by simp, hlow⟩
    · exact ⟨"members", by simp, hlow⟩
    · exact ⟨"premiere", by simp, hlow⟩
  rw [hbt] at hbad
  cases hbad

/-- Witness for C7: the scenario list, where the entry titled
`Fun Half Clip` is filtered out and the main stream is selected. -/
theorem pick_never_banned_title_witness :
    pick_target_stream
        [Entry.mk (some ("a")) (some ("u1")) none (some ("Fun Half Clip")) (some 300) (some 10),
          Entry.mk (some ("b")) (some ("u2")) none (some ("MR Live")) (some 9000) (some 10)] 10
      = some (mkCand (Entry.mk (some ("b")) (some ("u2")) none (some ("MR Live")) (some 9000) (some 10))) ∧
    lowerL ("CLIP" : String).toList = "clip".toList ∧
    pyIn ("CLIP" : String).toList
        (((mkCand (Entry.mk (some ("b")) (some ("u2")) none (some ("MR Live")) (some 9000) (some 10))).title.getD "").toList)
      = false :=
  ⟨by decide, by decide,
    pick_never_banned_title
      [Entry.mk (some ("a")) (some ("u1")) none (some ("Fun Half Clip")) (some 300) (some 10),
        Entry.mk (some ("b")) (some ("u2")) none (some ("MR Live")) (some 9000) (some 10)] 10
      (mkCand (Entry.mk (some ("b")) (some ("u2")) none (some ("MR Live")) (some 9000) (some 10)))
      (by decide) ("CLIP") (Or.inl (by decide))⟩

/-- C2: when, after the title filter, at least one candidate's date equals
the target date, the selector returns a same-day candidate of maximal
duration, ties broken by first-encountered order in the input list. -/
theorem pick_same_day (entries : List Entry) (target : Int)
    (h : sameList entries target ≠ []) :
    ∃ c, pick_target_stream entries target = some c ∧
      c.et_date = some target ∧
      (∀ y ∈ sameList entries target, y.duration ≤ c.duration) ∧
      (sameList entries target).find? (fun y => decide (c.duration ≤ y.duration))
        = some c := by
  cases hs : sameList entries target with
  | nil => exact absurd hs h
  | cons c0 cs =>
    obtain ⟨hm, hb, hf⟩ := pymaxFold_spec (fun c => c.duration) c0 cs
    refine ⟨pymaxFold (fun c => c.duration) c0 cs, ?_, ?_, ?_, ?_⟩
    · unfold pick_target_stream
      rw [hs]
    · have hmem : pymaxFold (fun c => c.duration) c0 cs ∈ sameList entries target := by
        rw [hs]; exact hm
      have hp := (List.mem_filter.mp hmem).2
      simpa using hp
    · intro y hy
      exact hb y hy
    · exact hf

/-- Witness for C2 at the spec's scenario: the clip entry is filtered out
and the long `MR Live` entry of the target date is selected. -/
theorem pick_same_day_witness :
    (sameList
        [Entry.mk (some ("a")) (some ("u1")) none (some ("Fun Half Clip")) (some 300) (some 10),
          Entry.mk (some ("b")) (some ("u2")) none (some ("MR Live")) (some 9000) (some 10)] 10
      ≠ []) ∧
    (∃ c, pick_target_stream
        [Entry.mk (some ("a")) (some ("u1")) none (some ("Fun Half Clip")) (some 300) (some 10),
          Entry.mk (some ("b")) (some ("u2")) none (some ("MR Live")) (some 9000) (some 10)] 10
        = some c ∧
      c.et_date = some 10 ∧
      (∀ y ∈ sameList
          [Entry.mk (some ("a")) (some ("u1")) none (some ("Fun Half Clip")) (some 300) (some 10),
            Entry.mk (some ("b")) (some ("u2")) none (some ("MR Live")) (some 9000) (some 10)] 10,
        y.duration ≤ c.duration) ∧
      (sameList
          [Entry.mk (some ("a")) (some ("u1")) none (some ("Fun Half Clip")) (some 300) (some 10),
            Entry.mk (some ("b")) (some ("u2")) none (some ("MR Live")) (some 9000) (some 10)] 10).find?
          (fun y => decide (c.duration ≤ y.duration))
        = some c) :=
  ⟨by decide,
    pick_same_day
      [Entry.mk (some ("a")) (some ("u1")) none (some ("Fun Half Clip")) (some 300) (some 10),
        Entry.mk (some ("b")) (some ("u2")) none (some ("MR Live")) (some 9000) (some 10)] 10
      (by decide)⟩

/-- C8: with an empty same-day set the selector draws from exactly the
surviving candidates dated on or before the target: it returns `none` iff
that prior set is empty, and any returned candidate belongs to the prior set,
has a known date at most the target, and is maximal under the
(date descending, duration descending) lexicographic ordering. -/
theorem pick_prior_fallback (entries : List Entry) (target : Int)
    (hsame : sameList entries target = []) :
    (priorList entries target = [] → pick_target_stream entries target = none) ∧
    (priorList entries target ≠ [] →
      ∃ c, pick_target_stream entries target = some c) ∧
    (∀ c, pick_target_stream entries target = some c →
      c ∈ priorList entries target ∧
      (∃ d, c.et_date = some d ∧ d ≤ target) ∧
      ∀ y ∈ priorList entries target,
        (lexKey y).1 < (lexKey c).1 ∨
          ((lexKey y).1 = (lexKey c).1 ∧ (lexKey y).2 ≤ (lexKey c).2)) := by
  have hpick : pick_target_stream entries target
      = match (priorList entries target).mergeSort keyGe with
        | [] => none
        | c :: _ => some c := by
    unfold pick_target_stream
    rw [hsame]
  refine ⟨?_, ?_, ?_⟩
  · intro hp
    rw [hpick, hp, List.mergeSort_nil]
  · intro hp
    cases hms : (priorList entries target).mergeSort keyGe with
    | nil =>
      have hperm := List.mergeSort_perm (priorList entries target) keyGe
      rw [hms] at hperm
      exact absurd hperm.nil_eq.symm hp
    | cons b bs =>
      exact ⟨b, by rw [hpick, hms]⟩
  · intro c hc
    rw [hpick] at hc
    cases hms : (priorList entries target).mergeSort keyGe with
    | nil =>
      rw [hms] at hc
      simp at hc
    | cons b bs =>
      rw [hms] at hc
      have hbc : b = c := by simpa using hc
      have hmemb : b ∈ priorList entries target :=
        List.mem_mergeSort.mp (by rw [hms]; simp)
      have hmem : c ∈ priorList entries target := hbc ▸ hmemb
      refine ⟨hmem, ?_, ?_⟩
      · have hp := (List.mem_filter.mp hmem).2
        cases hbd : c.et_date with
        | none => simp only [hbd] at hp; cases hp
        | some d =>
          simp only [hbd, decide_eq_true_eq] at hp
          exact ⟨d, rfl, hp⟩
      · intro y hy
        have hsorted :=
          List.sorted_mergeSort keyGe_trans keyGe_total (priorList entries target)
        rw [hms] at hsorted
        have hpw := (List.pairwise_cons.mp hsorted).1
        have hy' : y ∈ b :: bs := by
          rw [← hms]
          exact List.mem_mergeSort.mpr hy
        rcases List.mem_cons.mp hy' with rfl | hy''
        · rw [hbc]
          exact Or.inr ⟨rfl, le_refl _⟩
        · have hge := hpw y hy''
          rw [hbc] at hge
          simpa only [keyGe, decide_eq_true_eq] using hge

/-- Witness for C8 at a concrete list with an empty same-day and empty prior
set (the only dated survivor is after the target): the selector returns
nothing. -/
theorem pick_prior_fallback_witness :
    (sameList
        [Entry.mk (some ("a")) (some ("u1")) none (some ("MR Live")) (some 100) (some 20),
          Entry.mk (some ("b")) (some ("u2")) none (some ("Old Clip")) (some 200) (some 5)] 10
      = []) ∧
    (priorList
        [Entry.mk (some ("a")) (some ("u1")) none (some ("MR Live")) (some 100) (some 20),
          Entry.mk (some ("b")) (some ("u2")) none (some ("Old Clip")) (some 200) (some 5)] 10
      = []) ∧
    pick_target_stream
        [Entry.mk (some ("a")) (some ("u1")) none (some ("MR Live")) (some 100) (some 20),
          Entry.mk (some ("b")) (some ("u2")) none (some ("Old Clip")) (some 200) (some 5)] 10
      = none :=
  ⟨by decide, by decide,
    (pick_prior_fallback
        [Entry.mk (some ("a")) (some ("u1")) none (some ("MR Live")) (some 100) (some 20),
          Entry.mk (some ("b")) (some ("u2")) none (some ("Old Clip")) (some 200) (some 5)] 10
        (by decide)).1 (by decide)⟩

/-! ## Theorems: the feed store (claims C1, C3, C10) -/

/-- The collected identifier set never contains the empty string: empty
identifiers are skipped. -/
theorem empty_ident_not_collected (items : List FeedItem) :
    "" ∉ read_existing_guids_pure items := by
  unfold read_existing_guids_pure
  intro hmem
  rw [List.mem_toFinset] at hmem
  obtain ⟨it, -, hit⟩ := List.mem_filterMap.mp hmem
  dsimp only at hit
  split at hit
  · cases hit
  · exact absurd (Option.some_inj.mp hit) (by assumption)

/-- Appending the empty link to a parsed document always inserts. -/
theorem append_empty_inserts (items : List FeedItem) (bk : List String)
    (title pubDate : String) :
    append_item_to_feed ⟨.valid items, bk⟩ title "" pubDate
      = .ok (true, ⟨.valid (mkFeedItem title "" pubDate :: items), bk⟩) := by
  unfold append_item_to_feed
  simp [ensure_feed_exists, read_existing_guids, empty_ident_not_collected items]

/-- C1: appending a link that is already present as an item identifier
returns `False` without mutating the store; consequently any number of
repeated appends of that link leave the store unchanged, and a document
holding exactly one item with that link keeps exactly one. -/
theorem append_idempotent (st : Store) (title link pubDate : String)
    (h : link ∈ (read_existing_guids st).1) :
    append_item_to_feed st title link pubDate = .ok (false, st) ∧
    (∀ n : Nat, ((appendStep title link pubDate)^[n]) st = st) ∧
    (countLink link st.file = 1 →
      ∀ n : Nat, countLink link (((appendStep title link pubDate)^[n]) st).file = 1) := by
  obtain ⟨file, bk⟩ := st
  cases file with
  | absent => simp [read_existing_guids] at h
  | corrupt c => simp [read_existing_guids] at h
  | valid items =>
    have hm : link ∈ read_existing_guids_pure items := by
      simpa [read_existing_guids] using h
    have happ : append_item_to_feed ⟨.valid items, bk⟩ title link pubDate
        = .ok (false, ⟨.valid items, bk⟩) := by
      unfold append_item_to_feed
      simp [ensure_feed_exists, read_existing_guids, hm]
    have hstep : appendStep title link pubDate ⟨.valid items, bk⟩
        = ⟨.valid items, bk⟩ := by
      unfold appendStep
      rw [happ]
    refine ⟨happ, ?_, ?_⟩
    · intro n
      exact Function.iterate_fixed hstep n
    · intro h1 n
      rw [Function.iterate_fixed hstep n]
      exact h1

/-- Witness for C1: a store holding the link `https://youtu.be/x1x1x1` as an
identifier; the append of that link reports `False` and changes nothing. -/
theorem append_idempotent_witness :
    ("https://youtu.be/x1x1x1" ∈
      (read_existing_guids
        ⟨.valid [FeedItem.mk (some ("t0")) (some ("https://youtu.be/x1x1x1"))
            (some ("https://youtu.be/x1x1x1")) (some ("d0"))], []⟩).1) ∧
    append_item_to_feed
        ⟨.valid [FeedItem.mk (some ("t0")) (some ("https://youtu.be/x1x1x1"))
            (some ("https://youtu.be/x1x1x1")) (some ("d0"))], []⟩
        ("t1") ("https://youtu.be/x1x1x1") ("d1")
      = .ok (false,
          ⟨.valid [FeedItem.mk (some ("t0")) (some ("https://youtu.be/x1x1x1"))
              (some ("https://youtu.be/x1x1x1")) (some ("d0"))], []⟩) :=
  ⟨by decide,
    (append_idempotent
        ⟨.valid [FeedItem.mk (some ("t0")) (some ("https://youtu.be/x1x1x1"))
            (some ("https://youtu.be/x1x1x1")) (some ("d0"))], []⟩
        ("t1") ("https://youtu.be/x1x1x1") ("d1") (by decide)).1⟩

/-- C3 evaluation: on an unparsable feed file, `read_existing_guids` itself
does recover — it returns the empty set, the corrupt content is preserved as
a backup, and a fresh valid empty document replaces it — but
`append_item_to_feed` on the same store raises `ParseError` from its
unguarded parse, which runs before `read_existing_guids` could recover, so
the append aborts instead of continuing. -/
theorem corrupt_append_raises (content : String) (bk : List String)
    (title link pubDate : String) :
    read_existing_guids ⟨.corrupt content, bk⟩
      = (∅, ⟨.valid [], content :: bk⟩) ∧
    append_item_to_feed ⟨.corrupt content, bk⟩ title link pubDate
      = .error .parseError :=
  ⟨rfl, rfl⟩

/-- C10: deduplication is keyed on non-empty identifiers only: the collected
identifier set never contains the empty string; appending the empty link to a
parsed document returns `True` and inserts a fresh item on every call; such
an insertion does not grow the identifier set at all; and `n` repeated
appends pile up `n` duplicate empty-link items. -/
theorem append_empty_link_duplicates (items : List FeedItem) (bk : List String)
    (title pubDate : String) :
    (∀ st : Store, "" ∉ (read_existing_guids st).1) ∧
    append_item_to_feed ⟨.valid items, bk⟩ title "" pubDate
      = .ok (true, ⟨.valid (mkFeedItem title "" pubDate :: items), bk⟩) ∧
    read_existing_guids_pure (mkFeedItem title "" pubDate :: items)
      = read_existing_guids_pure items ∧
    (∀ n : Nat,
      countLink "" (((appendStep title "" pubDate)^[n]) ⟨.valid items, bk⟩).file
        = countLink "" (FileState.valid items) + n) := by
  have hiter : ∀ n : Nat, ((appendStep title "" pubDate)^[n]) ⟨.valid items, bk⟩
      = ⟨.valid (List.replicate n (mkFeedItem title "" pubDate) ++ items), bk⟩ := by
    intro n
    induction n with
    | zero => simp
    | succ n ih =>
      rw [Function.iterate_succ_apply', ih]
      unfold appendStep
      rw [append_empty_inserts]
      simp [List.replicate_succ]
  refine ⟨?_, append_empty_inserts items bk title pubDate, rfl, ?_⟩
  · intro st
    obtain ⟨file, bks⟩ := st
    cases file with
    | absent => simp [read_existing_guids]
    | corrupt c => simp [read_existing_guids]
    | valid its =>
      simpa [read_existing_guids] using empty_ident_not_collected its
  · intro n
    rw [hiter n]
    simp only [countLink]
    rw [List.filter_append]
    have hrep : (List.replicate n (mkFeedItem title "" pubDate)).filter
        (fun it => decide (it.link = some "")) = List.replicate n (mkFeedItem title "" pubDate) := by
      apply List.filter_eq_self.mpr
      intro a ha
      rw [List.eq_of_mem_replicate ha]
      simp [mkFeedItem]
    rw [hrep]
    simp [List.length_append, List.length_replicate]
    omega

end Fhrss
